import Mathlib

/-!
Shallow embedding of the bounded chat-history store and the AI responder of
the AI-Voice-Assistant repository (`app/services/chat_history.py` and
`app/services/ai_service.py`), together with theorems settling the spec's
claims about them.

Python strings are modelled as `List Char`; `str.lower` as a character-wise
`Char.toLower` map; the `in` substring operator as an executable substring
test; timestamps as an abstract `Nat` clock value supplied to each append;
Python `int` as `Int` where a negative value is representable at the call
site (`max_messages`, slice arguments).
-/

def lit (s : String) : List Char :=
  s.data

/-- Character-wise lower-casing, the model of Python `str.lower()`. -/
def lowerStr (s : List Char) : List Char :=
  s.map Char.toLower

/-- Executable prefix test on character lists. -/
def isPrefixOfB : List Char → List Char → Bool
  | [], _ => true
  | _ :: _, [] => false
  | c :: cs, d :: ds => c == d && isPrefixOfB cs ds

/-- Executable substring test, the model of Python `needle in haystack`. -/
def isSubstrOf : List Char → List Char → Bool
  | p, [] => isPrefixOfB p []
  | p, l@(_ :: t) => isPrefixOfB p l || isSubstrOf p t

/-- One stored turn pair, the model of the dict built in `add_message`. -/
structure Message where
  id : Nat
  timestamp : Nat
  user : List Char
  assistant : List Char
  duration : Nat
  deriving DecidableEq, Repr

/-- The model of the `ChatHistory` object's state. -/
structure ChatHistory where
  messages : List Message
  max_messages : Int
  deriving DecidableEq, Repr

/-- `ChatHistory.__init__`: empty list, given capacity. -/
def ChatHistory.init (max_messages : Int) : ChatHistory :=
  { messages := [], max_messages := max_messages }

/-- `ChatHistory.add_message`: build the message with `id = len(messages) + 1`,
append it, then pop index 0 if the length exceeds `max_messages`.
Returns the new state and the message object the Python method returns. -/
def ChatHistory.add_message (h : ChatHistory) (now : Nat)
    (user_message ai_response : List Char) : ChatHistory × Message :=
  let message_obj : Message :=
    { id := h.messages.length + 1, timestamp := now, user := user_message,
      assistant := ai_response, duration := 0 }
  let appended := h.messages ++ [message_obj]
  let trimmed :=
    if (appended.length : Int) > h.max_messages then appended.tail else appended
  ({ h with messages := trimmed }, message_obj)

/-- `ChatHistory.get_last_message`: `messages[-1] if messages else None`. -/
def ChatHistory.get_last_message (h : ChatHistory) : Option Message :=
  h.messages.getLast?

/-- `ChatHistory.get_last_timestamp`. -/
def ChatHistory.get_last_timestamp (h : ChatHistory) : Option Nat :=
  (h.get_last_message).map (fun m => m.timestamp)

/-- `ChatHistory.get_all_messages`: a copy of the list. -/
def ChatHistory.get_all_messages (h : ChatHistory) : List Message :=
  h.messages

/-- Clamp one Python slice endpoint for a list of length `n`. -/
def sliceIndex (n : Nat) (i : Int) : Nat :=
  if i < 0 then ((n : Int) + i).toNat else min i.toNat n

/-- Python list slice `l[start:stop]` (step 1). -/
def pySlice {α : Type} (l : List α) (start stop : Int) : List α :=
  let a := sliceIndex l.length start
  let b := sliceIndex l.length stop
  (l.drop a).take (b - a)

/-- `ChatHistory.get_messages`: `messages[offset : offset + limit]`. -/
def ChatHistory.get_messages (h : ChatHistory) (limit offset : Int) : List Message :=
  pySlice h.messages offset (offset + limit)

/-- `ChatHistory.search_messages`: keep messages whose lower-cased user or
assistant text contains the lower-cased query. -/
def ChatHistory.search_messages (h : ChatHistory) (query : List Char) : List Message :=
  h.messages.filter (fun msg =>
    isSubstrOf (lowerStr query) (lowerStr msg.user) ||
      isSubstrOf (lowerStr query) (lowerStr msg.assistant))

/-- `ChatHistory.clear`: `messages.clear()`. -/
def ChatHistory.clear (h : ChatHistory) : ChatHistory :=
  { h with messages := [] }

/-- The loop of `ChatHistory.delete_message`: pop the first list element whose
`id` equals the argument and report whether one was found. -/
def deleteFirst : List Message → Nat → List Message × Bool
  | [], _ => ([], false)
  | m :: rest, mid =>
    if m.id = mid then (rest, true)
    else
      let r := deleteFirst rest mid
      (m :: r.1, r.2)

/-- `ChatHistory.delete_message`. -/
def ChatHistory.delete_message (h : ChatHistory) (message_id : Nat) :
    ChatHistory × Bool :=
  let r := deleteFirst h.messages message_id
  ({ h with messages := r.1 }, r.2)

/-- Result record of `get_conversation_summary`; the two timestamp fields are
`none` exactly when the Python dict omits the keys (empty history). -/
structure Summary where
  total_messages : Nat
  avg_response_length : Nat
  first_message : Option Nat
  last_message : Option Nat
  deriving DecidableEq, Repr

/-- `ChatHistory.get_conversation_summary`. -/
def ChatHistory.get_conversation_summary (h : ChatHistory) : Summary :=
  match h.messages with
  | [] => { total_messages := 0, avg_response_length := 0,
            first_message := none, last_message := none }
  | m :: rest =>
    let total := (m :: rest).length
    let totalLen := ((m :: rest).map (fun x => x.assistant.length)).sum
    { total_messages := total,
      avg_response_length := totalLen / total,
      first_message := some m.timestamp,
      last_message := some (((m :: rest).getLast (List.cons_ne_nil m rest)).timestamp) }

/-- One mutating operation on the log, for stating lifetime invariants. -/
inductive Op where
  | append (now : Nat) (user_message ai_response : List Char)
  | deleteById (mid : Nat)
  | clear

def Op.isAppend : Op → Bool
  | .append _ _ _ => true
  | _ => false

def ChatHistory.applyOp (h : ChatHistory) : Op → ChatHistory
  | .append now u a => (h.add_message now u a).1
  | .deleteById mid => (h.delete_message mid).1
  | .clear => h.clear

def ChatHistory.run (h : ChatHistory) (ops : List Op) : ChatHistory :=
  ops.foldl ChatHistory.applyOp h

/-- The ids handed out by the appends of an operation sequence, in order. -/
def ChatHistory.runIds (h : ChatHistory) : List Op → List Nat
  | [] => []
  | .append now u a :: rest =>
    let r := h.add_message now u a
    r.2.id :: r.1.runIds rest
  | op :: rest => (h.applyOp op).runIds rest

/-! ## AI responder (`app/services/ai_service.py`)

Exceptional control flow is modelled with `Except Unit`: a network/JSON
oracle value of `Except.error ()` stands for the underlying library raising.
A provider oracle carries the HTTP status code and, for a well-formed body,
the extracted reply text (`none` standing for a body whose field access
raises, which the Python code catches). Truthiness of an API key mirrors
Python: absent (`none`) or empty keys are falsy. -/

structure AIService where
  openai_api_key : Option (List Char)
  perplexity_api_key : Option (List Char)
  ai_provider : List Char
  deriving DecidableEq, Repr

/-- `AIService.__init__` given the two environment variables. -/
def AIService.init (openaiKey perplexityKey : Option (List Char)) : AIService :=
  { openai_api_key := openaiKey, perplexity_api_key := perplexityKey,
    ai_provider := lit ("perplexity") }

/-- Python truthiness of an optional string. -/
def truthy : Option (List Char) → Bool
  | none => false
  | some s => !s.isEmpty

/-- Body of `AIService._get_perplexity_response` before its `except` clause. -/
def perplexityBody (net : Except Unit (Nat × Option (List Char))) :
    Except Unit (Option (List Char)) := do
  let r ← net
  if r.1 = 200 then
    match r.2 with
    | some t => pure (some t)
    | none => Except.error ()
  else
    pure none

/-- `AIService._get_perplexity_response`: the body with every exception
converted to `None`. -/
def getPerplexityResponse (net : Except Unit (Nat × Option (List Char))) :
    Option (List Char) :=
  match perplexityBody net with
  | .ok r => r
  | .error _ => none

/-- Body of `AIService._get_openai_response` before its `except` clause:
the oracle either raises or carries the extracted reply text. -/
def openaiBody (net : Except Unit (Option (List Char))) :
    Except Unit (Option (List Char)) := do
  let r ← net
  match r with
  | some t => pure (some t)
  | none => Except.error ()

/-- `AIService._get_openai_response`. -/
def getOpenaiResponse (net : Except Unit (Option (List Char))) :
    Option (List Char) :=
  match openaiBody net with
  | .ok r => r
  | .error _ => none

/-- `AIService._get_fallback_response`; `nowTime` models the formatted
`datetime.now()` string of the `time` branch. -/
def getFallbackResponse (user_message nowTime : List Char) : List Char :=
  let message_lower := lowerStr user_message
  if isSubstrOf (lit ("hello")) message_lower || isSubstrOf (lit ("hi")) message_lower then
    lit ("Hello! How can I assist you today?")
  else if isSubstrOf (lit ("how are you")) message_lower then
    lit ("I am functioning well. Thank you for asking!")
  else if isSubstrOf (lit ("weather")) message_lower then
    lit ("I would need API access to check current weather conditions.")
  else if isSubstrOf (lit ("time")) message_lower then
    lit ("The current time is ") ++ nowTime ++ lit (".")
  else
    lit ("I understand you said: \x22") ++ user_message ++
      lit ("\x22. Please configure an AI API to get more detailed responses.")

/-- Body of `AIService.get_response` before its `except` clause. -/
def AIService.getResponseBody (s : AIService) (user_message nowTime : List Char)
    (pnet : Except Unit (Nat × Option (List Char)))
    (onet : Except Unit (Option (List Char))) : Except Unit (Option (List Char)) :=
  if s.ai_provider == lit ("perplexity") && truthy s.perplexity_api_key then
    pure (getPerplexityResponse pnet)
  else if truthy s.openai_api_key then
    pure (getOpenaiResponse onet)
  else
    pure (some (getFallbackResponse user_message nowTime))

/-- `AIService.get_response`: the body with every exception converted to
`None`. -/
def AIService.get_response (s : AIService) (user_message nowTime : List Char)
    (pnet : Except Unit (Nat × Option (List Char)))
    (onet : Except Unit (Option (List Char))) : Option (List Char) :=
  match s.getResponseBody user_message nowTime pnet onet with
  | .ok r => r
  | .error _ => none

/-! ## Helper lemmas -/

theorem isPrefixOfB_iff (p l : List Char) : isPrefixOfB p l = true ↔ p <+: l := by
  induction p generalizing l with
  | nil => simp [isPrefixOfB]
  | cons c cs ih =>
    cases l with
    | nil => simp [isPrefixOfB]
    | cons d ds => simp [isPrefixOfB, List.cons_prefix_cons, ih]

theorem isSubstrOf_iff (p l : List Char) : isSubstrOf p l = true ↔ p <:+: l := by
  induction l with
  | nil => simp [isSubstrOf, isPrefixOfB_iff, List.infix_nil]
  | cons d ds ih =>
    simp [isSubstrOf, isPrefixOfB_iff, ih, List.infix_cons_iff]

theorem isSubstrOf_eq_decide (p l : List Char) :
    isSubstrOf p l = decide (p <:+: l) := by
  rw [← Bool.decide_coe (isSubstrOf p l)]
  exact decide_eq_decide.mpr (isSubstrOf_iff p l)

theorem isSubstrOf_nil (l : List Char) : isSubstrOf [] l = true := by
  cases l <;> simp [isSubstrOf, isPrefixOfB]

theorem deleteFirst_eq (l : List Message) (mid : Nat) :
    deleteFirst l mid
      = (l.eraseP (fun m => m.id == mid), l.any (fun m => m.id == mid)) := by
  induction l with
  | nil => rfl
  | cons m rest ih =>
    simp only [deleteFirst, List.eraseP_cons, List.any_cons]
    by_cases hm : m.id = mid
    · simp [hm]
    · have hb : (m.id == mid) = false := by simp [hm]
      simp [hm, hb, ih]

/-! ## C4 -/

/-- C4: `delete_message` returns `true` exactly when a message with the given
id is held; in that case it removes precisely the first match (one element);
otherwise it leaves the state entirely unchanged; the capacity field is never
touched. -/
theorem delete_message_spec (h : ChatHistory) (mid : Nat) :
    ((h.delete_message mid).2 = true ↔ ∃ m ∈ h.messages, m.id = mid)
    ∧ ((h.delete_message mid).2 = true →
        (h.delete_message mid).1.messages.length + 1 = h.messages.length
        ∧ (h.delete_message mid).1.messages
            = h.messages.eraseP (fun m => m.id == mid))
    ∧ ((h.delete_message mid).2 = false → (h.delete_message mid).1 = h)
    ∧ (h.delete_message mid).1.max_messages = h.max_messages := by
  obtain ⟨msgs, mx⟩ := h
  simp only [ChatHistory.delete_message, deleteFirst_eq]
  refine ⟨by simp [List.any_eq_true], ?_, ?_, by simp⟩
  · intro hfound
    simp only [List.any_eq_true, beq_iff_eq] at hfound
    obtain ⟨m, hm, hid⟩ := hfound
    exact ⟨List.length_eraseP_add_one hm (by simp [hid]), by simp⟩
  · intro hnone
    have hne : ∀ m ∈ msgs, ¬ ((fun m => m.id == mid) m = true) := by
      intro m hm hp
      have hany : (msgs.any fun m => m.id == mid) = true :=
        List.any_eq_true.mpr ⟨m, hm, hp⟩
      rw [hnone] at hany
      exact Bool.false_ne_true hany
    rw [List.eraseP_of_forall_not hne]

def msgA : Message :=
  { id := 1, timestamp := 0, user := lit ("Hi there"),
    assistant := lit ("Hello! How can I help?"), duration := 0 }

def msgB : Message :=
  { id := 2, timestamp := 1, user := lit ("what is the Weather"),
    assistant := lit ("cloudy"), duration := 0 }

def logW : ChatHistory := { messages := [msgA, msgB], max_messages := 100 }

/-- Witness for C4 at a concrete two-message log and a present id. -/
theorem delete_message_spec_witness :
    (logW.delete_message 1).1.messages.length + 1 = logW.messages.length
    ∧ (logW.delete_message 1).1.messages
        = logW.messages.eraseP (fun m => m.id == 1) :=
  (delete_message_spec logW 1).2.1 (by decide)

/-! ## C3 -/

theorem applyOp_invariant (h : ChatHistory) (op : Op)
    (hle : (h.messages.length : Int) ≤ h.max_messages) :
    ((h.applyOp op).messages.length : Int) ≤ h.max_messages
      ∧ (h.applyOp op).max_messages = h.max_messages := by
  cases op with
  | append now u a =>
    refine ⟨?_, rfl⟩
    simp only [ChatHistory.applyOp, ChatHistory.add_message]
    split
    next hc =>
      simp only [List.length_tail, List.length_append, List.length_singleton]
      push_cast
      omega
    next hc =>
      simp only [List.length_append, List.length_singleton] at hc ⊢
      push_cast at hc ⊢
      omega
  | deleteById mid =>
    refine ⟨?_, rfl⟩
    simp only [ChatHistory.applyOp, ChatHistory.delete_message, deleteFirst_eq]
    by_cases hf : h.messages.any (fun m => m.id == mid) = true
    · obtain ⟨m, hm, hid⟩ := List.any_eq_true.mp hf
      have hlen := List.length_eraseP_add_one (p := fun m => m.id == mid) hm hid
      omega
    · have hne : ∀ m ∈ h.messages, ¬ ((fun m => m.id == mid) m = true) :=
        fun m hm hp => hf (List.any_eq_true.mpr ⟨m, hm, hp⟩)
      rw [List.eraseP_of_forall_not hne]
      exact hle
  | clear =>
    refine ⟨?_, rfl⟩
    simp only [ChatHistory.applyOp, ChatHistory.clear, List.length_nil,
      Nat.cast_zero]
    omega

theorem run_invariant (ops : List Op) : ∀ (h : ChatHistory),
    (h.messages.length : Int) ≤ h.max_messages →
    ((h.run ops).messages.length : Int) ≤ (h.run ops).max_messages
      ∧ (h.run ops).max_messages = h.max_messages := by
  induction ops with
  | nil => intro h hle; exact ⟨hle, rfl⟩
  | cons op rest ih =>
    intro h hle
    have step := applyOp_invariant h op hle
    have hrec := ih (h.applyOp op) (by rw [step.2]; exact step.1)
    have hrun : h.run (op :: rest) = (h.applyOp op).run rest := rfl
    rw [hrun]
    exact ⟨hrec.1, hrec.2.trans step.2⟩

/-- C3: starting from the empty log with capacity `c > 0`, the number of held
messages never exceeds `c` after any sequence of append/delete/clear
operations. -/
theorem length_le_capacity (c : Int) (ops : List Op) (hc : 0 < c) :
    (((ChatHistory.init c).run ops).messages.length : Int) ≤ c := by
  have h0 : (((ChatHistory.init c).messages.length : Nat) : Int) ≤ c := by
    simp only [ChatHistory.init, List.length_nil, Nat.cast_zero]
    omega
  have hinv := run_invariant ops (ChatHistory.init c) h0
  have h2 : ((ChatHistory.init c).run ops).max_messages = c := hinv.2
  exact hinv.1.trans (le_of_eq h2)

/-- Witness for C3: capacity 2, four appends then a delete. -/
theorem length_le_capacity_witness :
    (((ChatHistory.init 2).run
        [.append 0 [] [], .append 1 [] [], .append 2 [] [],
         .append 3 [] [], .deleteById 3]).messages.length : Int) ≤ 2 :=
  length_le_capacity 2
    [.append 0 [] [], .append 1 [] [], .append 2 [] [],
     .append 3 [] [], .deleteById 3] (by decide)

/-! ## C8 -/

/-- C8: on a log with positive capacity, `get_last_message` right after
`add_message` is exactly the message `add_message` returned; on an empty log
`get_last_message` and `get_last_timestamp` are `none`. -/
theorem append_then_last (h : ChatHistory) (now : Nat) (u a : List Char) :
    (1 ≤ h.max_messages →
      (h.add_message now u a).1.get_last_message
        = some (h.add_message now u a).2)
    ∧ (h.messages = [] →
        h.get_last_message = none ∧ h.get_last_timestamp = none) := by
  constructor
  · intro hcap
    simp only [ChatHistory.add_message, ChatHistory.get_last_message]
    split
    next hc =>
      cases hm : h.messages with
      | nil =>
        exfalso
        rw [hm] at hc
        simp only [List.nil_append, List.length_singleton, Nat.cast_one] at hc
        omega
      | cons x xs =>
        simp [List.getLast?_concat]
    next hc => simp [List.getLast?_concat]
  · intro hemp
    simp [ChatHistory.get_last_message, ChatHistory.get_last_timestamp, hemp]

/-- Witness for C8: a concrete append on a two-message log, and the empty
log's empty signals. -/
theorem append_then_last_witness :
    ((logW.add_message 5 (lit ("ping")) (lit ("pong"))).1.get_last_message
      = some (logW.add_message 5 (lit ("ping")) (lit ("pong"))).2)
    ∧ ((ChatHistory.init 3).get_last_message = none
        ∧ (ChatHistory.init 3).get_last_timestamp = none) :=
  ⟨(append_then_last logW 5 (lit ("ping")) (lit ("pong"))).1 (by decide),
   (append_then_last (ChatHistory.init 3) 0 [] []).2 rfl⟩

/-! ## C6 -/

/-- C6: `get_conversation_summary` of a non-empty log reports the held count,
the floor of the mean assistant-text length, and the oldest and newest
timestamps; on an empty log it reports zeros and no timestamps. -/
theorem summary_spec (h : ChatHistory) :
    (h.messages = [] →
      h.get_conversation_summary
        = { total_messages := 0, avg_response_length := 0,
            first_message := none, last_message := none })
    ∧ (h.messages ≠ [] →
      (h.get_conversation_summary).total_messages = h.messages.length
      ∧ (h.get_conversation_summary).avg_response_length
          = ((h.messages.map (fun m => m.assistant.length)).sum)
              / h.messages.length
      ∧ (h.get_conversation_summary).first_message
          = h.messages.head?.map (fun m => m.timestamp)
      ∧ (h.get_conversation_summary).last_message
          = h.messages.getLast?.map (fun m => m.timestamp)) := by
  obtain ⟨msgs, mx⟩ := h
  cases msgs with
  | nil => exact ⟨fun _ => rfl, fun hne => absurd rfl hne⟩
  | cons m rest =>
    refine ⟨fun hemp => absurd hemp (by simp), fun _ => ⟨rfl, rfl, rfl, ?_⟩⟩
    simp only [ChatHistory.get_conversation_summary]
    rw [List.getLast?_eq_getLast (m :: rest) (List.cons_ne_nil m rest)]
    rfl

/-- Witness for C6 at a concrete non-empty log. -/
theorem summary_spec_witness :
    (logW.get_conversation_summary).avg_response_length
      = ((logW.messages.map (fun m => m.assistant.length)).sum)
          / logW.messages.length :=
  ((summary_spec logW).2 (by decide)).2.1

/-! ## C5 -/

/-- C5: `search_messages` returns exactly the held messages whose lower-cased
user or assistant text has the lower-cased query as a substring, in original
order with multiplicity (a filter of the held sequence), and the empty query
returns every held message. -/
theorem search_messages_spec (h : ChatHistory) (q : List Char) :
    h.search_messages q
      = h.messages.filter (fun m =>
          decide (lowerStr q <:+: lowerStr m.user
            ∨ lowerStr q <:+: lowerStr m.assistant))
    ∧ h.search_messages [] = h.messages := by
  constructor
  · unfold ChatHistory.search_messages
    apply List.filter_congr
    intro m _
    rw [isSubstrOf_eq_decide, isSubstrOf_eq_decide]
    rw [Bool.decide_or]
  · simp [ChatHistory.search_messages, lowerStr, isSubstrOf_nil]

/-! ## C9 -/

/-- C9: `get_response` never lets an exception escape (its body always
evaluates to a normal result, for every provider-oracle outcome, including a
raising one) and, when neither API key is usable, it returns the locally
computed canned fallback reply, not the unavailable signal. -/
theorem get_response_total (s : AIService) (user_message nowTime : List Char)
    (pnet : Except Unit (Nat × Option (List Char)))
    (onet : Except Unit (Option (List Char))) :
    s.getResponseBody user_message nowTime pnet onet
        = Except.ok (s.get_response user_message nowTime pnet onet)
    ∧ (truthy s.perplexity_api_key = false → truthy s.openai_api_key = false →
        s.get_response user_message nowTime pnet onet
          = some (getFallbackResponse user_message nowTime)) := by
  have hbody : ∃ r, s.getResponseBody user_message nowTime pnet onet
      = Except.ok r := by
    unfold AIService.getResponseBody
    split
    · exact ⟨_, rfl⟩
    · split
      · exact ⟨_, rfl⟩
      · exact ⟨_, rfl⟩
  obtain ⟨r, hr⟩ := hbody
  constructor
  · unfold AIService.get_response
    rw [hr]
  · intro h1 h2
    simp [AIService.get_response, AIService.getResponseBody, h1, h2, pure,
      Except.pure]

/-- Witness for C9: no key configured, both oracles unusable (one raising),
the canned fallback is returned. -/
theorem get_response_total_witness :
    AIService.get_response (AIService.init none none) (lit ("hello"))
        (lit ("10:00:00")) (Except.error ()) (Except.ok none)
      = some (getFallbackResponse (lit ("hello")) (lit ("10:00:00"))) :=
  (get_response_total (AIService.init none none) (lit ("hello"))
      (lit ("10:00:00")) (Except.error ()) (Except.ok none)).2
    (by decide) (by decide)

/-! ## C10 -/

theorem deleteFirst_first_match (l₂ : List Message) (m : Message) (mid : Nat) :
    ∀ (l₁ : List Message), (∀ x ∈ l₁, x.id ≠ mid) → m.id = mid →
    deleteFirst (l₁ ++ m :: l₂) mid = (l₁ ++ l₂, true) := by
  intro l₁
  induction l₁ with
  | nil =>
    intro _ hm
    simp [deleteFirst, hm]
  | cons x xs ih =>
    intro h1 hm
    have hx : ¬ (x.id = mid) := h1 x (List.mem_cons_self x xs)
    simp only [List.cons_append, deleteFirst, if_neg hx, List.append_eq]
    rw [ih (fun y hy => h1 y (List.mem_cons_of_mem x hy)) hm]

def dupOps : List Op :=
  [.append 0 [] [], .append 1 [] [], .append 2 [] [], .append 3 [] []]

/-- C10: duplicate ids are reachable (four appends at capacity 2 leave two
messages with id 3) and `delete_message` on such a state removes only the
single oldest matching message and returns `true`, keeping every other
message, including the later one with the same id; in general it removes the
first match when one exists and never removes more than one element. -/
theorem delete_first_match_only :
    (((ChatHistory.init 2).run dupOps).messages.map (fun m => m.id) = [3, 3]
      ∧ (((ChatHistory.init 2).run dupOps).delete_message 3).2 = true
      ∧ ((((ChatHistory.init 2).run dupOps).delete_message 3).1.messages.map
          (fun m => m.id)) = [3])
    ∧ (∀ (mx : Int) (l₁ l₂ : List Message) (m : Message) (mid : Nat),
        (∀ x ∈ l₁, x.id ≠ mid) → m.id = mid →
        ChatHistory.delete_message ⟨l₁ ++ m :: l₂, mx⟩ mid
          = (⟨l₁ ++ l₂, mx⟩, true))
    ∧ (∀ (h : ChatHistory) (mid : Nat),
        h.messages.length ≤ (h.delete_message mid).1.messages.length + 1) := by
  refine ⟨by decide, ?_, ?_⟩
  · intro mx l₁ l₂ m mid h1 hm
    simp only [ChatHistory.delete_message]
    rw [deleteFirst_first_match l₂ m mid l₁ h1 hm]
  · intro h mid
    obtain ⟨msgs, mx⟩ := h
    simp only [ChatHistory.delete_message, deleteFirst_eq]
    by_cases hf : msgs.any (fun m => m.id == mid) = true
    · obtain ⟨x, hx, hid⟩ := List.any_eq_true.mp hf
      have := List.length_eraseP_add_one (p := fun m => m.id == mid) hx hid
      omega
    · have hne : ∀ x ∈ msgs, ¬ ((fun m => m.id == mid) x = true) :=
        fun x hx hp => hf (List.any_eq_true.mpr ⟨x, hx, hp⟩)
      rw [List.eraseP_of_forall_not hne]
      omega

/-- Witness for C10: delete a duplicated id in a concrete list, and the
one-removal bound on a concrete log. -/
theorem delete_first_match_only_witness :
    ChatHistory.delete_message ⟨[msgB] ++ msgA :: [msgA], 100⟩ 1
      = (⟨[msgB] ++ [msgA], 100⟩, true)
    ∧ logW.messages.length ≤ (logW.delete_message 2).1.messages.length + 1 :=
  ⟨delete_first_match_only.2.1 100 [msgB] [msgA] msgA 1 (by decide) (by decide),
   delete_first_match_only.2.2 logW 2⟩

/-! ## C1 -/

/-- C1 fails on the code: `add_message` takes the id from the current list
length, so after `append, clear, append` the issued ids are `[1, 1]`, not a
strictly increasing sequence. -/
theorem ids_not_strictly_increasing :
    ¬ List.Chain' (fun i j => i < j)
        ((ChatHistory.init 100).runIds
          [.append 0 [] [], .clear, .append 1 [] []]) := by
  have hval : (ChatHistory.init 100).runIds
      [.append 0 [] [], .clear, .append 1 [] []] = [1, 1] := by decide
  rw [hval]
  intro hchain
  exact absurd (List.chain'_cons.mp hchain).1 (by omega)

theorem add_message_no_evict (h : ChatHistory) (now : Nat) (u a : List Char)
    (hlt : (h.messages.length : Int) < h.max_messages) :
    (h.add_message now u a).1.messages
      = h.messages ++ [(h.add_message now u a).2]
    ∧ (h.add_message now u a).2.id = h.messages.length + 1
    ∧ (h.add_message now u a).1.max_messages = h.max_messages := by
  refine ⟨?_, rfl, rfl⟩
  simp only [ChatHistory.add_message]
  split
  next hc =>
    exfalso
    simp only [List.length_append, List.length_singleton] at hc
    push_cast at hc
    omega
  next => rfl

theorem add_message_evict (h : ChatHistory) (now : Nat) (u a : List Char)
    (hge : h.max_messages ≤ (h.messages.length : Int)) :
    (h.add_message now u a).1.messages
      = (h.messages ++ [(h.add_message now u a).2]).tail
    ∧ (h.add_message now u a).2.id = h.messages.length + 1
    ∧ (h.add_message now u a).1.max_messages = h.max_messages := by
  refine ⟨?_, rfl, rfl⟩
  simp only [ChatHistory.add_message]
  split
  next => rfl
  next hc =>
    exfalso
    simp only [List.length_append, List.length_singleton] at hc
    push_cast at hc
    omega

theorem runIds_append_only (ops : List Op) : ∀ (h : ChatHistory),
    (∀ op ∈ ops, op.isAppend = true) →
    ((h.messages.length : Int) + ops.length ≤ h.max_messages) →
    h.runIds ops = List.range' (h.messages.length + 1) ops.length := by
  induction ops with
  | nil => intro h _ _; rfl
  | cons op rest ih =>
    intro h hall hlen
    have hop := hall op (List.mem_cons_self op rest)
    cases op with
    | deleteById mid => simp [Op.isAppend] at hop
    | clear => simp [Op.isAppend] at hop
    | append now u a =>
      have hlt : (h.messages.length : Int) < h.max_messages := by
        simp only [List.length_cons] at hlen
        push_cast at hlen
        omega
      have hstep := add_message_no_evict h now u a hlt
      have hlen2 : (h.add_message now u a).1.messages.length
          = h.messages.length + 1 := by
        rw [hstep.1]
        simp
      simp only [List.length_cons]
      show (h.add_message now u a).2.id :: (h.add_message now u a).1.runIds rest
          = List.range' (h.messages.length + 1) (rest.length + 1)
      rw [List.range'_succ, hstep.2.1]
      congr 1
      rw [ih ((h.add_message now u a).1)
          (fun o ho => hall o (List.mem_cons_of_mem _ ho))
          (by
            rw [hstep.2.2, hlen2]
            simp only [List.length_cons] at hlen
            push_cast at hlen ⊢
            omega),
        hlen2]

/-- C1 amended: the id of an appended message equals the number of held
messages plus one, so ids are strictly increasing (indeed consecutive) only
across appends during which the log stays within capacity; after deletions,
evictions, or clears ids can be reused. -/
theorem id_assignment_spec :
    (∀ (h : ChatHistory) (now : Nat) (u a : List Char),
        ((h.add_message now u a).2).id = h.messages.length + 1)
    ∧ (∀ (ops : List Op) (h : ChatHistory),
        (∀ op ∈ ops, op.isAppend = true) →
        ((h.messages.length : Int) + ops.length ≤ h.max_messages) →
        h.runIds ops = List.range' (h.messages.length + 1) ops.length) :=
  ⟨fun _ _ _ _ => rfl, runIds_append_only⟩

/-- Witness for C1 (amended): two appends on an empty capacity-100 log issue
ids 1, 2. -/
theorem id_assignment_spec_witness :
    (ChatHistory.init 100).runIds [.append 0 [] [], .append 1 [] []]
      = List.range' 1 2 :=
  id_assignment_spec.2 [.append 0 [] [], .append 1 [] []]
    (ChatHistory.init 100) (by decide) (by decide)

/-! ## C2 -/

/-- `N` consecutive calls of `add_message`, the `k`-th with inputs `f k`. -/
def ChatHistory.appendRun (h : ChatHistory)
    (f : Nat → Nat × List Char × List Char) : Nat → ChatHistory
  | 0 => h
  | n + 1 =>
    ((h.appendRun f n).add_message (f (n + 1)).1 (f (n + 1)).2.1
      (f (n + 1)).2.2).1

/-- Ids actually retained after `N` appends on a fresh log of capacity `c`:
the ids of the last `min N c` appends, where the `k`-th append was assigned
`min k (c + 1)`. -/
def expectedIds (c N : Nat) : List Nat :=
  (List.range' (N - min N c + 1) (min N c)).map (fun k => min k (c + 1))

theorem tail_append_singleton {β : Type} (l : List β) (x : β) (hne : l ≠ []) :
    (l ++ [x]).tail = l.tail ++ [x] := by
  cases l with
  | nil => exact absurd rfl hne
  | cons y ys => rfl

theorem appendRun_ids (c : Nat) (hc : 1 ≤ c)
    (f : Nat → Nat × List Char × List Char) : ∀ (N : Nat),
    ((ChatHistory.init (c : Int)).appendRun f N).messages.map (fun m => m.id)
        = expectedIds c N
    ∧ ((ChatHistory.init (c : Int)).appendRun f N).messages.length = min N c
    ∧ ((ChatHistory.init (c : Int)).appendRun f N).max_messages = (c : Int) := by
  intro N
  induction N with
  | zero =>
    refine ⟨?_, by simp [ChatHistory.appendRun, ChatHistory.init], rfl⟩
    simp [ChatHistory.appendRun, ChatHistory.init, expectedIds]
  | succ n ihn =>
    obtain ⟨hids, hlen, hmax⟩ := ihn
    simp only [ChatHistory.appendRun]
    by_cases hlt : n < c
    · have hroom : ((((ChatHistory.init (c : Int)).appendRun f n).messages.length : Nat) : Int)
          < ((ChatHistory.init (c : Int)).appendRun f n).max_messages := by
        rw [hlen, hmax]
        push_cast
        omega
      have hstep := add_message_no_evict _ (f (n + 1)).1 (f (n + 1)).2.1
        (f (n + 1)).2.2 hroom
      have hexp : expectedIds c n ++ [n + 1] = expectedIds c (n + 1) := by
        unfold expectedIds
        have h1 : min n c = n := by omega
        have h2 : min (n + 1) c = n + 1 := by omega
        rw [h1, h2, Nat.sub_self, Nat.sub_self, Nat.zero_add,
          List.range'_concat, List.map_append]
        congr 1
        simp only [List.map_cons, List.map_nil, List.cons.injEq, and_true]
        omega
      refine ⟨?_, ?_, hstep.2.2.trans hmax⟩
      · rw [hstep.1, List.map_append, hids]
        simp only [List.map_cons, List.map_nil]
        rw [hstep.2.1, hlen, show min n c + 1 = n + 1 by omega]
        exact hexp
      · rw [hstep.1, List.length_append, hlen]
        simp only [List.length_singleton]
        omega
    · have hfull : ((ChatHistory.init (c : Int)).appendRun f n).max_messages
          ≤ ((((ChatHistory.init (c : Int)).appendRun f n).messages.length : Nat) : Int) := by
        rw [hlen, hmax]
        push_cast
        omega
      have hstep := add_message_evict _ (f (n + 1)).1 (f (n + 1)).2.1
        (f (n + 1)).2.2 hfull
      have hnnil : ((ChatHistory.init (c : Int)).appendRun f n).messages ≠ [] := by
        intro hnil
        rw [hnil] at hlen
        simp at hlen
        omega
      have hexp : (expectedIds c n).tail ++ [c + 1] = expectedIds c (n + 1) := by
        unfold expectedIds
        have h1 : min n c = c := by omega
        have h2 : min (n + 1) c = c := by omega
        rw [h1, h2]
        obtain ⟨d, hd⟩ : ∃ d, c = d + 1 := ⟨c - 1, by omega⟩
        subst hd
        rw [List.range'_succ, List.map_cons, List.tail_cons,
          List.range'_concat, List.map_append]
        congr 1
        · rw [show n - (d + 1) + 1 + 1 = n + 1 - (d + 1) + 1 by omega]
        · simp only [List.map_cons, List.map_nil, List.cons.injEq, and_true]
          omega
      refine ⟨?_, ?_, hstep.2.2.trans hmax⟩
      · rw [hstep.1, tail_append_singleton _ _ hnnil, List.map_append,
          List.map_tail, hids]
        simp only [List.map_cons, List.map_nil]
        rw [hstep.2.1, hlen, show min n c + 1 = c + 1 by omega]
        exact hexp
      · rw [hstep.1, List.length_tail, List.length_append, hlen]
        simp only [List.length_singleton]
        omega

/-- C2 fails on the code: with capacity 1 and three appends, the single
retained message has id 2, not 3 (ids above capacity + 1 are never issued
since each id is the current length + 1). -/
theorem retained_ids_not_most_recent :
    ¬ (((ChatHistory.init 1).appendRun (fun k => (k, [], [])) 3).messages.map
        (fun m => m.id) = [3]) := by
  decide

def logFull : ChatHistory := { messages := [msgA, msgB], max_messages := 2 }

/-- C2 amended: after `N > c ≥ 1` appends on a fresh log of capacity `c`,
exactly `c` messages remain — those created by the last `c` appends in
order — and the `k`-th append carries id `min k (c + 1)` (not `k`); each
append on a log at capacity still evicts exactly the single oldest element
and leaves the length unchanged. -/
theorem append_past_capacity (c : Nat) (f : Nat → Nat × List Char × List Char)
    (N : Nat) (hc : 1 ≤ c) (hN : c < N) :
    ((ChatHistory.init (c : Int)).appendRun f N).messages.length = c
    ∧ ((ChatHistory.init (c : Int)).appendRun f N).messages.map (fun m => m.id)
        = (List.range' (N - c + 1) c).map (fun k => min k (c + 1))
    ∧ (∀ (h : ChatHistory) (now : Nat) (u a : List Char),
        (h.messages.length : Int) = h.max_messages → 1 ≤ h.max_messages →
        (h.add_message now u a).1.messages
          = h.messages.tail ++ [(h.add_message now u a).2]
        ∧ (h.add_message now u a).1.messages.length = h.messages.length) := by
  obtain ⟨hids, hlen, hmax⟩ := appendRun_ids c hc f N
  refine ⟨?_, ?_, ?_⟩
  · rw [hlen]
    omega
  · rw [hids]
    unfold expectedIds
    rw [show min N c = c by omega]
  · intro h now u a heq hpos
    have hstep := add_message_evict h now u a (le_of_eq heq.symm)
    have hne : h.messages ≠ [] := by
      intro hnil
      rw [hnil] at heq
      simp only [List.length_nil, Nat.cast_zero] at heq
      omega
    refine ⟨?_, ?_⟩
    · rw [hstep.1, tail_append_singleton h.messages _ hne]
    · rw [hstep.1, List.length_tail, List.length_append]
      simp

/-- Witness for C2 (amended): capacity 1, three appends keep one message;
an append on a full two-message log drops exactly the oldest. -/
theorem append_past_capacity_witness :
    ((ChatHistory.init 1).appendRun (fun k => (k, [], [])) 3).messages.length = 1
    ∧ (logFull.add_message 9 [] []).1.messages
        = logFull.messages.tail ++ [(logFull.add_message 9 [] []).2] :=
  ⟨(append_past_capacity 1 (fun k => (k, [], [])) 3 (by decide) (by decide)).1,
   ((append_past_capacity 1 (fun k => (k, [], [])) 3 (by decide)
        (by decide)).2.2 logFull 9 [] [] (by decide) (by decide)).1⟩

/-! ## C7 -/

/-- The paging behavior the claim describes, stated from the claim's words
for comparison with the code: negative `limit`/`offset` treated as zero,
`offset` beyond the end empty, then up to `limit` elements from `offset`. -/
def pageClaim (l : List Message) (limit offset : Int) : List Message :=
  (l.drop offset.toNat).take limit.toNat

/-- C7 fails on the code: `get_messages` is a raw Python slice, so a negative
`limit` is interpreted from the end of the list rather than as zero —
`page(limit = -1, offset = 0)` on a two-message log returns the first
message, while treating the negative limit as zero would return nothing. -/
theorem get_messages_negative_not_zero :
    ¬ (logW.get_messages (-1) 0 = pageClaim logW.messages (-1) 0) := by
  decide

theorem slice_take_drop {α : Type} (l : List α) (o lim : Nat) :
    (l.drop (min o l.length)).take (min (o + lim) l.length - min o l.length)
      = (l.drop o).take lim := by
  by_cases ho : l.length ≤ o
  · rw [List.drop_eq_nil_of_le (by omega : l.length ≤ min o l.length),
      List.drop_eq_nil_of_le ho]
    simp
  · have hmo : min o l.length = o := by omega
    rw [hmo]
    by_cases hs : o + lim ≤ l.length
    · rw [show min (o + lim) l.length - o = lim by omega]
    · have hdl : (l.drop o).length = l.length - o := List.length_drop o l
      rw [show min (o + lim) l.length - o = l.length - o by omega]
      rw [List.take_of_length_le (le_of_eq hdl),
        List.take_of_length_le (by omega)]

theorem pySlice_contiguous {α : Type} (l : List α) (u v : Int) :
    pySlice l u v <:+: l := by
  refine ⟨l.take (sliceIndex l.length u),
    (l.drop (sliceIndex l.length u)).drop
      (sliceIndex l.length v - sliceIndex l.length u), ?_⟩
  show l.take (sliceIndex l.length u)
      ++ (l.drop (sliceIndex l.length u)).take
          (sliceIndex l.length v - sliceIndex l.length u)
      ++ (l.drop (sliceIndex l.length u)).drop
          (sliceIndex l.length v - sliceIndex l.length u) = l
  rw [List.append_assoc, List.take_append_drop, List.take_append_drop]

/-- C7 amended: for nonnegative arguments `get_messages` returns up to
`limit` elements starting at index `offset`, oldest-to-newest (so an offset
at or past the end, or a zero limit, yields the empty sequence); negative
arguments follow Python slice semantics (counted from the end of the list)
rather than being treated as zero; for every argument pair the result is a
contiguous sub-sequence of the held messages, so the operation never reads
out of bounds. -/
theorem get_messages_spec (h : ChatHistory) (limit offset : Int) :
    (0 ≤ limit → 0 ≤ offset →
      h.get_messages limit offset
        = (h.messages.drop offset.toNat).take limit.toNat)
    ∧ h.get_messages limit offset <:+: h.messages := by
  constructor
  · intro hl ho
    have h1 : ¬ (offset < 0) := by omega
    have h2 : ¬ (offset + limit < 0) := by omega
    simp only [ChatHistory.get_messages, pySlice, sliceIndex, if_neg h1,
      if_neg h2]
    rw [Int.toNat_add ho hl]
    exact slice_take_drop h.messages offset.toNat limit.toNat
  · exact pySlice_contiguous h.messages offset (offset + limit)

/-- Witness for C7 (amended): a two-element page at the start of a concrete
log. -/
theorem get_messages_spec_witness :
    logW.get_messages 2 0 = (logW.messages.drop (0 : Int).toNat).take
        (2 : Int).toNat
    ∧ logW.get_messages 2 0 <:+: logW.messages :=
  ⟨(get_messages_spec logW 2 0).1 (by decide) (by decide),
   (get_messages_spec logW 2 0).2⟩
